import Mathlib

/-!
Shallow embedding of the `aftr` lexer (`src/lib.rs`), a tokenizer built from
`nom` parser combinators.  Input strings are modelled as `List Char`; a parser
is a function from the remaining input to a result that is either a success
(carrying the rest of the input and a value), a recoverable error (nom's
`Err::Error`, which alternatives may catch), or an unrecoverable failure
(nom's `Err::Failure`, produced by `cut`, which aborts the whole parse).
The error payloads that nom carries (offset, error kind) are abstracted away:
the claims under study only depend on success versus failure.

The `nom` combinators used by the source are reproduced here with nom 7
semantics: in particular `many0`/`many1`/`many_m_n` reject an inner parser
that succeeds without consuming input, and the exponent of `recognize_float`
uses `cut`, so a dangling exponent marker aborts the parse.  Numeric payloads
are modelled as exact rationals: the f64 rounding step of `double` is not
reproduced, and the `inf`/`nan` exception branch of `double` is omitted (in
`token` it is unreachable: any input starting with a letter is taken by the
higher-priority identifier rule).

Rust's Unicode character classifiers `char::is_alphabetic` and
`char::is_alphanumeric` are reproduced exactly on the Basic Latin and Latin-1
Supplement blocks (code points below 0x100), which cover every character
appearing in this development; characters of higher blocks are classified as
not alphabetic and not alphanumeric rather than reproducing the full Unicode
tables.
-/

namespace Aftr

/-- Remaining input of a parser: a list of characters. -/
abbrev Input := List Char

/-- Result of running a nom parser: success with remaining input and value,
recoverable error (nom `Err::Error`), or unrecoverable failure
(nom `Err::Failure`). -/
inductive PRes (α : Type) where
  | ok (rest : Input) (val : α)
  | err
  | fail
deriving DecidableEq, Repr

/-- A nom string parser, specialised to the value type `α`. -/
abbrev Parser (α : Type) := Input → PRes α

/-- Map the value of a parser result. -/
def PRes.map {α β : Type} (f : α → β) : PRes α → PRes β
  | .ok rest v => .ok rest (f v)
  | .err => .err
  | .fail => .fail

/-- nom `satisfy`: consume one character matching the predicate. -/
def satisfy (p : Char → Bool) : Parser Char
  | [] => .err
  | c :: rest => if p c then .ok rest c else .err

/-- nom `char`: consume exactly the given character. -/
def char (c : Char) : Parser Char :=
  satisfy (fun x => x == c)

/-- Helper for `tag`: match a literal character sequence, returning the rest. -/
def tagAux : List Char → Input → Option Input
  | [], input => some input
  | _ :: _, [] => none
  | c :: cs, x :: xs => if x == c then tagAux cs xs else none

/-- nom `tag`: consume exactly the given literal character sequence. -/
def tag (t : List Char) : Parser (List Char) := fun input =>
  match tagAux t input with
  | some rest => .ok rest t
  | none => .err

/-- nom `one_of`: consume one character belonging to the given set. -/
def one_of (s : List Char) : Parser Char :=
  satisfy (fun c => s.contains c)

/-- nom `newline`: consume a single line feed. -/
def newline : Parser Char :=
  char '\n'

/-- The four characters recognised by nom `multispace1`:
space, tab, carriage return and line feed. -/
def is_multispace (c : Char) : Bool :=
  c == ' ' || c == '\t' || c == '\r' || c == '\n'

/-- nom `multispace1` (complete): the longest nonempty prefix of spaces, tabs,
carriage returns and line feeds; errors when that prefix is empty. -/
def multispace1 : Parser (List Char) := fun input =>
  let s := input.takeWhile is_multispace
  if s.isEmpty then .err else .ok (input.drop s.length) s

/-- nom `digit1` (complete): the longest nonempty prefix of ASCII digits;
errors when that prefix is empty. -/
def digit1 : Parser (List Char) := fun input =>
  let s := input.takeWhile Char.isDigit
  if s.isEmpty then .err else .ok (input.drop s.length) s

/-- nom `alt`, over a list of alternatives: try each parser in order; a
recoverable error moves on to the next alternative, while a success or an
unrecoverable failure is returned as is.  All alternatives erring is an error. -/
def alt {α : Type} : List (Parser α) → Parser α
  | [] => fun _ => .err
  | p :: ps => fun input =>
    match p input with
    | .err => alt ps input
    | r => r

/-- nom `map`: apply a function to a parser's value. -/
def map {α β : Type} (p : Parser α) (f : α → β) : Parser β := fun input =>
  match p input with
  | .ok rest v => .ok rest (f v)
  | .err => .err
  | .fail => .fail

/-- nom `value`: replace a parser's value by a constant. -/
def value {α β : Type} (v : β) (p : Parser α) : Parser β := fun input =>
  match p input with
  | .ok rest _ => .ok rest v
  | .err => .err
  | .fail => .fail

/-- nom `opt`: turn a recoverable error into `none` without consuming input;
successes become `some`, unrecoverable failures propagate. -/
def opt {α : Type} (p : Parser α) : Parser (Option α) := fun input =>
  match p input with
  | .ok rest v => .ok rest (some v)
  | .err => .ok input none
  | .fail => .fail

/-- nom `peek`: run a parser without consuming input. -/
def peek {α : Type} (p : Parser α) : Parser α := fun input =>
  match p input with
  | .ok _ v => .ok input v
  | .err => .err
  | .fail => .fail

/-- nom `recognize`: return the span of input consumed by the inner parser. -/
def recognize {α : Type} (p : Parser α) : Parser (List Char) := fun input =>
  match p input with
  | .ok rest _ => .ok rest (input.take (input.length - rest.length))
  | .err => .err
  | .fail => .fail

/-- nom `consumed`: return the consumed span together with the value. -/
def consumed {α : Type} (p : Parser α) : Parser (List Char × α) := fun input =>
  match p input with
  | .ok rest v => .ok rest (input.take (input.length - rest.length), v)
  | .err => .err
  | .fail => .fail

/-- Sequencing of nom parsers (the composition underlying `tuple`,
`delimited`, `terminated` and friends). -/
def pbind {α β : Type} (p : Parser α) (f : α → Parser β) : Parser β := fun input =>
  match p input with
  | .ok rest v => f v rest
  | .err => .err
  | .fail => .fail

/-- nom `cut`: turn a recoverable error of the inner parser into an
unrecoverable failure. -/
def cut {α : Type} (p : Parser α) : Parser α := fun input =>
  match p input with
  | .err => .fail
  | r => r

/-- The loop of nom `many0`/`many1`, with explicit fuel.  Mirrors nom's loop:
an inner success that consumes nothing is rejected as a recoverable error (nom's
infinite-loop guard), an inner recoverable error ends the loop, an inner
unrecoverable failure propagates.  The fuel is always instantiated with more
than the length of the input, which the consumption guard makes sufficient. -/
def many0F {α : Type} (p : Parser α) : Nat → Parser (List α)
  | 0 => fun _ => .err
  | fuel + 1 => fun input =>
    match p input with
    | .fail => .fail
    | .err => .ok input []
    | .ok rest v =>
      if rest.length == input.length then .err
      else
        match many0F p fuel rest with
        | .ok rest2 vs => .ok rest2 (v :: vs)
        | .err => .err
        | .fail => .fail

/-- nom `many0`: apply a parser zero or more times, collecting the values. -/
def many0 {α : Type} (p : Parser α) : Parser (List α) := fun input =>
  many0F p (input.length + 1) input

/-- nom `many1`: apply a parser one or more times, collecting the values. -/
def many1 {α : Type} (p : Parser α) : Parser (List α) := fun input =>
  match p input with
  | .err => .err
  | .fail => .fail
  | .ok rest v =>
    match many0F p (rest.length + 1) rest with
    | .ok rest2 vs => .ok rest2 (v :: vs)
    | .err => .err
    | .fail => .fail

/-- nom `many_m_n`: apply a parser between `minc` and `maxc` times.  Fewer
than `minc` successes is a recoverable error; after `maxc` successes the loop
stops; an inner success that consumes nothing is rejected. -/
def many_m_n {α : Type} (p : Parser α) : Nat → Nat → Parser (List α)
  | _, 0 => fun input => .ok input []
  | minc, maxc + 1 => fun input =>
    match p input with
    | .fail => .fail
    | .err => if 0 < minc then .err else .ok input []
    | .ok rest v =>
      if rest.length == input.length then .err
      else
        match many_m_n p (minc - 1) maxc rest with
        | .ok rest2 vs => .ok rest2 (v :: vs)
        | .err => .err
        | .fail => .fail

/-- nom `tuple` of two parsers. -/
def tuple2 {α β : Type} (a : Parser α) (b : Parser β) : Parser (α × β) :=
  pbind a fun x => map b fun y => (x, y)

/-- nom `tuple` of three parsers. -/
def tuple3 {α β γ : Type} (a : Parser α) (b : Parser β) (c : Parser γ) :
    Parser (α × β × γ) :=
  pbind a fun x => pbind b fun y => map c fun z => (x, y, z)

/-- nom `delimited`: run three parsers in sequence, keeping the middle value. -/
def delimited {α β γ : Type} (a : Parser α) (b : Parser β) (c : Parser γ) :
    Parser β :=
  pbind a fun _ => pbind b fun v => value v c

/-- nom `terminated`: run two parsers in sequence, keeping the first value. -/
def terminated {α β : Type} (a : Parser α) (b : Parser β) : Parser α :=
  pbind a fun v => value v b

/-- nom `eof`: succeed exactly at end of input, without consuming. -/
def eof : Parser (List Char) := fun input =>
  if input.isEmpty then .ok input [] else .err

/-- nom `all_consuming`: succeed only if the inner parser consumed the whole
input. -/
def all_consuming {α : Type} (p : Parser α) : Parser α := fun input =>
  match p input with
  | .ok rest v => if rest.isEmpty then .ok rest v else .err
  | .err => .err
  | .fail => .fail

/-- Rust `char::is_alphabetic` (the Unicode `Alphabetic` property),
reproduced exactly on code points below 0x100 — ASCII letters and the
Latin-1 Supplement letters — and abbreviated to `false` on higher blocks. -/
def char_is_alphabetic (c : Char) : Bool :=
  let n := c.toNat
  (0x41 ≤ n && n ≤ 0x5A) || (0x61 ≤ n && n ≤ 0x7A) ||
  n == 0xAA || n == 0xB5 || n == 0xBA ||
  (0xC0 ≤ n && n ≤ 0xD6) || (0xD8 ≤ n && n ≤ 0xF6) || (0xF8 ≤ n && n ≤ 0xFF)

/-- Rust `char::is_alphanumeric` (Unicode `Alphabetic` or numeric),
reproduced exactly on code points below 0x100 — letters, ASCII digits and the
Latin-1 numeric characters — and abbreviated to `false` on higher blocks. -/
def char_is_alphanumeric (c : Char) : Bool :=
  char_is_alphabetic c || c.isDigit ||
  c.toNat == 0xB2 || c.toNat == 0xB3 || c.toNat == 0xB9 ||
  c.toNat == 0xBC || c.toNat == 0xBD || c.toNat == 0xBE

/-- Source `unicode_alphabetic`: a single Unicode alphabetic character. -/
def unicode_alphabetic : Parser Char :=
  satisfy char_is_alphabetic

/-- Source `word_character`: a single alphanumeric (Unicode) character or
underscore. -/
def word_character : Parser Char :=
  alt [char '_', satisfy char_is_alphanumeric]

/-- Source `not_char`: any single character but the specified one. -/
def not_char (banned_char : Char) : Parser Char :=
  satisfy (fun ch => ch != banned_char)

/-- The lexical token type of the source (`enum Token`).  Text payloads are
character lists; the numeric payload is an exact rational in place of `f64`. -/
inductive Token where
  | BracketRoundClosing
  | BracketRoundOpening
  | Identifier (s : List Char)
  | LineComment (s : List Char)
  | Number (x : ℚ)
  | Operator (s : List Char)
  | Slash
  | String (s : List Char)
  | Whitespace (s : List Char)
deriving DecidableEq, Repr

/-- Numeric value of a digit sequence. -/
def digitsVal (ds : List Char) : Nat :=
  ds.foldl (fun acc c => 10 * acc + (c.toNat - 48)) 0

/-- Signed value of an exponent suffix (an optional sign then digits). -/
def expVal (t : List Char) : Int :=
  match t with
  | '+' :: d => (digitsVal d : Int)
  | '-' :: d => -(digitsVal d : Int)
  | d => (digitsVal d : Int)

/-- Exact value of an unsigned float literal span with the given sign:
integer digits, optional fraction, optional exponent.  The rational is built
with a single `mkRat` so that concrete values reduce by `decide`. -/
def floatValParts (s : List Char) (sgn : Int) : ℚ :=
  let intd := s.takeWhile Char.isDigit
  let s1 := s.drop intd.length
  let fpair : List Char × List Char :=
    match s1 with
    | '.' :: t => (t.takeWhile Char.isDigit, t.drop (t.takeWhile Char.isDigit).length)
    | _ => ([], s1)
  let fracd := fpair.1
  let m : Nat := digitsVal intd * 10 ^ fracd.length + digitsVal fracd
  let e : Int :=
    match fpair.2 with
    | 'e' :: t => expVal t
    | 'E' :: t => expVal t
    | _ => 0
  match e with
  | .ofNat n => mkRat (sgn * m * 10 ^ n) (10 ^ fracd.length)
  | .negSucc k => mkRat (sgn * m) (10 ^ fracd.length * 10 ^ (k + 1))

/-- Exact value of a float literal span matched by `recognize_float`. -/
def floatVal (span : List Char) : ℚ :=
  match span with
  | '+' :: s => floatValParts s 1
  | '-' :: s => floatValParts s (-1)
  | s => floatValParts s 1

/-- First component of nom `recognize_float`: an optional sign. -/
def float_sign : Parser (Option Char) :=
  opt (alt [char '+', char '-'])

/-- Second component of nom `recognize_float`: either at least one digit with
an optional fraction (a dot followed by optional digits), or a dot followed by
at least one digit. -/
def float_mantissa : Parser Unit :=
  alt
    [ map (tuple2 digit1 (opt (tuple2 (char '.') (opt digit1)))) (fun _ => ())
    , map (tuple2 (char '.') digit1) (fun _ => ()) ]

/-- Third component of nom `recognize_float`: an optional exponent whose
digits, after `e`/`E` and an optional sign, are demanded by `cut` — their
absence aborts the whole parse. -/
def float_exponent : Parser (Option (Char × Option Char × List Char)) :=
  opt (tuple3
    (alt [char 'e', char 'E'])
    (opt (alt [char '+', char '-']))
    (cut digit1))

/-- nom `recognize_float`: optional sign, mantissa, optional exponent. -/
def recognize_float : Parser (List Char) :=
  recognize (tuple3 float_sign float_mantissa float_exponent)

/-- nom `double`: recognize a float literal and convert it.  The conversion is
 exact (rational) rather than rounded to `f64`, and the `inf`/`nan` exception
 branch is omitted as unreachable behind the identifier rule of `token`. -/
def double : Parser ℚ := fun input =>
  match recognize_float input with
  | .ok rest span => .ok rest (floatVal span)
  | .err => .err
  | .fail => .fail

/-- Source `line_comment` (in `token`): `//`, then characters other than
newline; a following newline, if present, is checked by lookahead but not
consumed. -/
def line_comment : Parser (List Char) :=
  delimited (tag ['/', '/']) (recognize (many0 (not_char '\n'))) (opt (peek newline))

/-- Source `identifier` (in `token`): one Unicode alphabetic character
followed by any number of word characters. -/
def identifier : Parser (List Char) :=
  recognize (tuple2 unicode_alphabetic (many0 word_character))

/-- Source `string` (in `token`): a double quote, characters other than a
double quote, then a closing double quote. -/
def string : Parser (List Char) :=
  delimited (char '"') (recognize (many0 (not_char '"'))) (char '"')

/-- Source `operator` (in `token`): one or two characters from `+<=.`. -/
def operator : Parser (List Char) :=
  recognize (many_m_n (one_of ['+', '<', '=', '.']) 1 2)

/-- The nine token rules of the source `token` function, in its `alt` order. -/
def rules : List (Parser Token) :=
  [ map line_comment Token.LineComment
  , map identifier Token.Identifier
  , map double Token.Number
  , map string Token.String
  , map operator Token.Operator
  , map multispace1 Token.Whitespace
  , value Token.BracketRoundClosing (char ')')
  , value Token.BracketRoundOpening (char '(')
  , value Token.Slash (char '/') ]

/-- Source `token`: the first token rule, in priority order, that matches at
the current position. -/
def token : Parser Token :=
  alt rules

/-- Source `lexer`: one or more tokens consuming the entire input. -/
def lexer : Parser (List Token) :=
  all_consuming (terminated (many1 token) eof)

/-- Instrumented driver: like `lexer`, but each token is paired with the
literal source span it matched (nom `consumed`). -/
def lexerSpans : Parser (List (List Char × Token)) :=
  all_consuming (terminated (many1 (consumed token)) eof)

/-- Modelled from the amended claim C4's words: the input after stripping an
optional leading sign. -/
def shapeSignRest (input : Input) : Input :=
  match input with
  | [] => []
  | c :: t => if c == '+' || c == '-' then t else c :: t

/-- Modelled from the amended claim C4's words: the rest of the input after
the mantissa of a float literal — either at least one integer digit followed
by an optional fraction (a dot and any run of digits), or no integer digits
and a dot followed by at least one digit; `none` when neither form is
present. -/
def shapeMantissa (s : Input) : Option Input :=
  let intd := s.takeWhile Char.isDigit
  let s1 := s.drop intd.length
  if intd.isEmpty then
    match s1 with
    | [] => none
    | c :: t =>
      if c == '.' then
        let fd := t.takeWhile Char.isDigit
        if fd.isEmpty then none else some (t.drop fd.length)
      else none
  else
    match s1 with
    | [] => some s1
    | c :: t =>
      if c == '.' then some (t.drop (t.takeWhile Char.isDigit).length) else some s1

/-- Modelled from the amended claim C4's words: the rest of the input after an
exponent body (an optional sign then mandatory digits); `none` when the
digits are missing. -/
def expRest (t : Input) : Option Input :=
  let t2 := shapeSignRest t
  let ed := t2.takeWhile Char.isDigit
  if ed.isEmpty then none else some (t2.drop ed.length)

/-- Modelled from the amended claim C4's words: the rest of the input after an
optional exponent; an `e` or `E` whose exponent digits are missing makes the
whole literal malformed (`none`) rather than being left unconsumed. -/
def shapeExponent (s2 : Input) : Option Input :=
  match s2 with
  | [] => some []
  | c :: t => if c == 'e' || c == 'E' then expRest t else some (c :: t)

/-- Modelled from the amended claim C4's words: the rest of the input after a
float literal of the amended shape, `none` when the input does not start with
such a literal. -/
def floatShapeRest (input : Input) : Option Input :=
  (shapeMantissa (shapeSignRest input)).bind shapeExponent

/-- The rest of the input after a successful run of `double`, `none` when
`double` does not succeed. -/
def doubleRest (input : Input) : Option Input :=
  match double input with
  | .ok rest _ => some rest
  | .err => none
  | .fail => none

/-- No two adjacent positions of the token list both hold `Slash`. -/
def noConsecutiveSlash (toks : List Token) : Prop :=
  ∀ i : Nat, ¬(toks.get? i = some Token.Slash ∧ toks.get? (i + 1) = some Token.Slash)

/-- A parser only ever returns a suffix of its input as the rest. -/
def Trims {α : Type} (p : Parser α) : Prop :=
  ∀ input rest v, p input = .ok rest v → List.IsSuffix rest input

end Aftr

namespace Aftr

theorem length_takeWhile_le (p : Char → Bool) (l : List Char) :
    (l.takeWhile p).length ≤ l.length := by
  induction l with
  | nil => simp
  | cons c t ih =>
    by_cases h : p c
    · simp only [List.takeWhile_cons_of_pos h, List.length_cons]
      omega
    · simp [List.takeWhile_cons_of_neg h]

theorem dropWhile_eq_drop (p : Char → Bool) (l : List Char) :
    l.dropWhile p = l.drop (l.takeWhile p).length := by
  induction l with
  | nil => rfl
  | cons c t ih =>
    by_cases h : p c
    · simp [List.dropWhile_cons_of_pos h, List.takeWhile_cons_of_pos h, ih]
    · simp [List.dropWhile_cons_of_neg h, List.takeWhile_cons_of_neg h]

theorem take_sub_of_append (pre rest : List Char) :
    (pre ++ rest).take ((pre ++ rest).length - rest.length) = pre := by
  have h : (pre ++ rest).length - rest.length = pre.length := by
    simp [List.length_append]
  rw [h]
  exact List.take_left pre rest

theorem trims_satisfy (p : Char → Bool) : Trims (satisfy p) := by
  intro input rest v h
  cases input with
  | nil => simp [satisfy] at h
  | cons c t =>
    simp only [satisfy] at h
    split at h
    · cases h
      exact List.suffix_cons _ _
    · cases h

theorem trims_char (c : Char) : Trims (char c) :=
  trims_satisfy _

theorem trims_not_char (b : Char) : Trims (not_char b) :=
  trims_satisfy _

theorem trims_one_of (s : List Char) : Trims (one_of s) :=
  trims_satisfy _

theorem tagAux_suffix : ∀ (t : List Char) (input rest : Input),
    tagAux t input = some rest → List.IsSuffix rest input := by
  intro t
  induction t with
  | nil =>
    intro input rest h
    simp only [tagAux, Option.some.injEq] at h
    subst h
    exact List.suffix_refl _
  | cons c cs ih =>
    intro input rest h
    cases input with
    | nil => simp [tagAux] at h
    | cons x xs =>
      simp only [tagAux] at h
      split at h
      · exact (ih xs rest h).trans ⟨[x], rfl⟩
      · cases h

theorem trims_tag (t : List Char) : Trims (tag t) := by
  intro input rest v h
  simp only [tag] at h
  cases htag : tagAux t input with
  | some r =>
    simp only [htag] at h
    cases h
    exact tagAux_suffix t input _ htag
  | none =>
    simp only [htag] at h
    cases h

theorem trims_multispace1 : Trims multispace1 := by
  intro input rest v h
  simp only [multispace1] at h
  split at h
  · cases h
  · cases h
    exact List.drop_suffix _ _

theorem trims_digit1 : Trims digit1 := by
  intro input rest v h
  simp only [digit1] at h
  split at h
  · cases h
  · cases h
    exact List.drop_suffix _ _

theorem trims_alt {α : Type} : ∀ (ps : List (Parser α)),
    (∀ p ∈ ps, Trims p) → Trims (alt ps) := by
  intro ps
  induction ps with
  | nil =>
    intro _ input rest v h
    simp [alt] at h
  | cons p tl ih =>
    intro hall input rest v h
    cases hp : p input with
    | ok r w =>
      simp only [alt, hp] at h
      cases h
      exact hall p (List.mem_cons_self p tl) _ _ _ hp
    | err =>
      simp only [alt, hp] at h
      exact ih (fun q hq => hall q (List.mem_cons_of_mem p hq)) _ _ _ h
    | fail =>
      simp only [alt, hp] at h
      cases h

theorem trims_map {α β : Type} (p : Parser α) (f : α → β) (hp : Trims p) :
    Trims (map p f) := by
  intro input rest v h
  cases hp2 : p input with
  | ok r w => simp only [map, hp2] at h; cases h; exact hp _ _ _ hp2
  | err => simp only [map, hp2] at h; cases h
  | fail => simp only [map, hp2] at h; cases h

theorem trims_value {α β : Type} (b : β) (p : Parser α) (hp : Trims p) :
    Trims (value b p) := by
  intro input rest v h
  cases hp2 : p input with
  | ok r w => simp only [value, hp2] at h; cases h; exact hp _ _ _ hp2
  | err => simp only [value, hp2] at h; cases h
  | fail => simp only [value, hp2] at h; cases h

theorem trims_opt {α : Type} (p : Parser α) (hp : Trims p) : Trims (opt p) := by
  intro input rest v h
  cases hp2 : p input with
  | ok r w => simp only [opt, hp2] at h; cases h; exact hp _ _ _ hp2
  | err => simp only [opt, hp2] at h; cases h; exact List.suffix_refl _
  | fail => simp only [opt, hp2] at h; cases h

theorem trims_peek {α : Type} (p : Parser α) : Trims (peek p) := by
  intro input rest v h
  cases hp2 : p input with
  | ok r w => simp only [peek, hp2] at h; cases h; exact List.suffix_refl _
  | err => simp only [peek, hp2] at h; cases h
  | fail => simp only [peek, hp2] at h; cases h

theorem trims_recognize {α : Type} (p : Parser α) (hp : Trims p) :
    Trims (recognize p) := by
  intro input rest v h
  cases hp2 : p input with
  | ok r w => simp only [recognize, hp2] at h; cases h; exact hp _ _ _ hp2
  | err => simp only [recognize, hp2] at h; cases h
  | fail => simp only [recognize, hp2] at h; cases h

theorem trims_consumed {α : Type} (p : Parser α) (hp : Trims p) :
    Trims (consumed p) := by
  intro input rest v h
  cases hp2 : p input with
  | ok r w => simp only [consumed, hp2] at h; cases h; exact hp _ _ _ hp2
  | err => simp only [consumed, hp2] at h; cases h
  | fail => simp only [consumed, hp2] at h; cases h

theorem trims_cut {α : Type} (p : Parser α) (hp : Trims p) : Trims (cut p) := by
  intro input rest v h
  cases hp2 : p input with
  | ok r w => simp only [cut, hp2] at h; cases h; exact hp _ _ _ hp2
  | err => simp only [cut, hp2] at h; cases h
  | fail => simp only [cut, hp2] at h; cases h

theorem trims_pbind {α β : Type} (p : Parser α) (f : α → Parser β)
    (hp : Trims p) (hf : ∀ v, Trims (f v)) : Trims (pbind p f) := by
  intro input rest v h
  cases hp2 : p input with
  | ok r w =>
    simp only [pbind, hp2] at h
    exact (hf w _ _ _ h).trans (hp _ _ _ hp2)
  | err => simp only [pbind, hp2] at h; cases h
  | fail => simp only [pbind, hp2] at h; cases h

theorem trims_eof : Trims eof := by
  intro input rest v h
  simp only [eof] at h
  split at h
  · cases h
    exact List.suffix_refl _
  · cases h

theorem trims_all_consuming {α : Type} (p : Parser α) (hp : Trims p) :
    Trims (all_consuming p) := by
  intro input rest v h
  cases hp2 : p input with
  | ok r w =>
    simp only [all_consuming, hp2] at h
    split at h
    · cases h
      exact hp _ _ _ hp2
    · cases h
  | err => simp only [all_consuming, hp2] at h; cases h
  | fail => simp only [all_consuming, hp2] at h; cases h

theorem trims_many0F {α : Type} (p : Parser α) (hp : Trims p) :
    ∀ fuel, Trims (many0F p fuel) := by
  intro fuel
  induction fuel with
  | zero =>
    intro input rest v h
    simp [many0F] at h
  | succ n ih =>
    intro input rest v h
    cases hp2 : p input with
    | fail => simp only [many0F, hp2] at h; cases h
    | err =>
      simp only [many0F, hp2] at h
      cases h
      exact List.suffix_refl _
    | ok r w =>
      simp only [many0F, hp2] at h
      split at h
      · cases h
      · cases hrec : many0F p n r with
        | ok r2 vs =>
          simp only [hrec] at h
          cases h
          exact (ih _ _ _ hrec).trans (hp _ _ _ hp2)
        | err => simp only [hrec] at h; cases h
        | fail => simp only [hrec] at h; cases h

theorem trims_many0 {α : Type} (p : Parser α) (hp : Trims p) : Trims (many0 p) := by
  intro input rest v h
  exact trims_many0F p hp _ _ _ _ h

theorem trims_many1 {α : Type} (p : Parser α) (hp : Trims p) : Trims (many1 p) := by
  intro input rest v h
  cases hp2 : p input with
  | err => simp only [many1, hp2] at h; cases h
  | fail => simp only [many1, hp2] at h; cases h
  | ok r w =>
    simp only [many1, hp2] at h
    cases hrec : many0F p (r.length + 1) r with
    | ok r2 vs =>
      simp only [hrec] at h
      cases h
      exact (trims_many0F p hp _ _ _ _ hrec).trans (hp _ _ _ hp2)
    | err => simp only [hrec] at h; cases h
    | fail => simp only [hrec] at h; cases h

theorem trims_many_m_n {α : Type} (p : Parser α) (hp : Trims p) :
    ∀ minc maxc, Trims (many_m_n p minc maxc) := by
  intro minc maxc
  induction maxc generalizing minc with
  | zero =>
    intro input rest v h
    simp only [many_m_n] at h
    cases h
    exact List.suffix_refl _
  | succ n ih =>
    intro input rest v h
    cases hp2 : p input with
    | fail => simp only [many_m_n, hp2] at h; cases h
    | err =>
      simp only [many_m_n, hp2] at h
      split at h
      · cases h
      · cases h
        exact List.suffix_refl _
    | ok r w =>
      simp only [many_m_n, hp2] at h
      split at h
      · cases h
      · cases hrec : many_m_n p (minc - 1) n r with
        | ok r2 vs =>
          simp only [hrec] at h
          cases h
          exact (ih _ _ _ _ hrec).trans (hp _ _ _ hp2)
        | err => simp only [hrec] at h; cases h
        | fail => simp only [hrec] at h; cases h

theorem trims_tuple2 {α β : Type} (a : Parser α) (b : Parser β)
    (ha : Trims a) (hb : Trims b) : Trims (tuple2 a b) :=
  trims_pbind _ _ ha fun _ => trims_map _ _ hb

theorem trims_tuple3 {α β γ : Type} (a : Parser α) (b : Parser β) (c : Parser γ)
    (ha : Trims a) (hb : Trims b) (hc : Trims c) : Trims (tuple3 a b c) :=
  trims_pbind _ _ ha fun _ => trims_pbind _ _ hb fun _ => trims_map _ _ hc

theorem trims_delimited {α β γ : Type} (a : Parser α) (b : Parser β) (c : Parser γ)
    (ha : Trims a) (hb : Trims b) (hc : Trims c) : Trims (delimited a b c) :=
  trims_pbind _ _ ha fun _ => trims_pbind _ _ hb fun v => trims_value v _ hc

theorem trims_terminated {α β : Type} (a : Parser α) (b : Parser β)
    (ha : Trims a) (hb : Trims b) : Trims (terminated a b) :=
  trims_pbind _ _ ha fun v => trims_value v _ hb

theorem trims_line_comment : Trims line_comment :=
  trims_delimited _ _ _ (trims_tag _)
    (trims_recognize _ (trims_many0 _ (trims_not_char _)))
    (trims_opt _ (trims_peek _))

theorem trims_identifier : Trims identifier :=
  trims_recognize _ (trims_tuple2 _ _ (trims_satisfy _) (trims_many0 _ (trims_alt _ (by
    intro p hp
    simp only [List.mem_cons, List.not_mem_nil, or_false] at hp
    rcases hp with rfl | rfl
    · exact trims_char _
    · exact trims_satisfy _))))

theorem trims_string : Trims string :=
  trims_delimited _ _ _ (trims_char _)
    (trims_recognize _ (trims_many0 _ (trims_not_char _)))
    (trims_char _)

theorem trims_operator : Trims operator :=
  trims_recognize _ (trims_many_m_n _ (trims_one_of _) 1 2)

theorem trims_float_sign : Trims float_sign := by
  apply trims_opt
  apply trims_alt
  intro p hp
  simp only [List.mem_cons, List.not_mem_nil, or_false] at hp
  rcases hp with rfl | rfl <;> exact trims_char _

theorem trims_float_mantissa : Trims float_mantissa := by
  apply trims_alt
  intro p hp
  simp only [List.mem_cons, List.not_mem_nil, or_false] at hp
  rcases hp with rfl | rfl
  · exact trims_map _ _ (trims_tuple2 _ _ trims_digit1
      (trims_opt _ (trims_tuple2 _ _ (trims_char _) (trims_opt _ trims_digit1))))
  · exact trims_map _ _ (trims_tuple2 _ _ (trims_char _) trims_digit1)

theorem trims_float_exponent : Trims float_exponent := by
  apply trims_opt
  apply trims_tuple3
  · apply trims_alt
    intro p hp
    simp only [List.mem_cons, List.not_mem_nil, or_false] at hp
    rcases hp with rfl | rfl <;> exact trims_char _
  · apply trims_opt
    apply trims_alt
    intro p hp
    simp only [List.mem_cons, List.not_mem_nil, or_false] at hp
    rcases hp with rfl | rfl <;> exact trims_char _
  · exact trims_cut _ trims_digit1

theorem trims_recognize_float : Trims recognize_float :=
  trims_recognize _ (trims_tuple3 _ _ _ trims_float_sign trims_float_mantissa trims_float_exponent)

theorem trims_double : Trims double := by
  intro input rest v h
  cases h2 : recognize_float input with
  | ok r w => simp only [double, h2] at h; cases h; exact trims_recognize_float _ _ _ h2
  | err => simp only [double, h2] at h; cases h
  | fail => simp only [double, h2] at h; cases h

theorem trims_token : Trims token := by
  apply trims_alt
  intro p hp
  simp only [rules, List.mem_cons, List.not_mem_nil, or_false] at hp
  rcases hp with rfl | rfl | rfl | rfl | rfl | rfl | rfl | rfl | rfl
  · exact trims_map _ _ trims_line_comment
  · exact trims_map _ _ trims_identifier
  · exact trims_map _ _ trims_double
  · exact trims_map _ _ trims_string
  · exact trims_map _ _ trims_operator
  · exact trims_map _ _ trims_multispace1
  · exact trims_value _ _ (trims_char _)
  · exact trims_value _ _ (trims_char _)
  · exact trims_value _ _ (trims_char _)

theorem consumed_split {α : Type} (p : Parser α) (hp : Trims p)
    (input rest : Input) (span : List Char) (v : α)
    (h : consumed p input = .ok rest (span, v)) :
    input = span ++ rest ∧ p input = .ok rest v := by
  cases h2 : p input with
  | ok r w =>
    simp only [consumed, h2] at h
    obtain ⟨pre, hpre⟩ := hp input r w h2
    have hr : r = rest := by cases h; rfl
    have hspan : input.take (input.length - r.length) = span := by cases h; rfl
    have hv : w = v := by cases h; rfl
    refine ⟨?_, by rw [hr, hv]⟩
    rw [← hspan, ← hr, ← hpre, take_sub_of_append]
  | err => simp only [consumed, h2] at h; cases h
  | fail => simp only [consumed, h2] at h; cases h


theorem isEmpty_eq_nil (l : List Char) (h : l.isEmpty = true) : l = [] := by
  cases l with
  | nil => rfl
  | cons a t => simp [List.isEmpty] at h

theorem all_consuming_ok {α : Type} (p : Parser α) (input rest : Input) (v : α)
    (h : all_consuming p input = .ok rest v) : p input = .ok rest v ∧ rest = [] := by
  cases h2 : p input with
  | ok r w =>
    simp only [all_consuming, h2] at h
    by_cases hr : r.isEmpty = true
    · rw [if_pos hr] at h
      cases h
      exact ⟨rfl, isEmpty_eq_nil _ hr⟩
    · rw [if_neg hr] at h
      cases h
  | err => simp only [all_consuming, h2] at h; cases h
  | fail => simp only [all_consuming, h2] at h; cases h

theorem terminated_eof_ok {α : Type} (p : Parser α) (input rest : Input) (v : α)
    (h : terminated p eof input = .ok rest v) : p input = .ok rest v ∧ rest = [] := by
  cases h2 : p input with
  | ok r w =>
    simp only [terminated, pbind, h2, value, eof] at h
    by_cases hr : r.isEmpty = true
    · rw [if_pos hr] at h
      cases h
      exact ⟨rfl, isEmpty_eq_nil _ hr⟩
    · rw [if_neg hr] at h
      cases h
  | err => simp only [terminated, pbind, h2] at h; cases h
  | fail => simp only [terminated, pbind, h2] at h; cases h

theorem many0F_map_snd {α : Type} (p : Parser α) :
    ∀ fuel input,
      many0F p fuel input = PRes.map (List.map Prod.snd) (many0F (consumed p) fuel input) := by
  intro fuel
  induction fuel with
  | zero => intro input; rfl
  | succ n ih =>
    intro input
    cases hp : p input with
    | fail => simp [many0F, consumed, hp, PRes.map]
    | err => simp [many0F, consumed, hp, PRes.map]
    | ok r w =>
      simp only [many0F, consumed, hp]
      by_cases hc : (r.length == input.length) = true
      · simp [hc, PRes.map]
      · rw [ih r]
        cases hrec : many0F (consumed p) n r with
        | ok r2 l2 => simp [hc, hrec, PRes.map]
        | err => simp [hc, hrec, PRes.map]
        | fail => simp [hc, hrec, PRes.map]

theorem many1_map_snd {α : Type} (p : Parser α) (input : Input) :
    many1 p input = PRes.map (List.map Prod.snd) (many1 (consumed p) input) := by
  cases hp : p input with
  | err => simp [many1, consumed, hp, PRes.map]
  | fail => simp [many1, consumed, hp, PRes.map]
  | ok r w =>
    simp only [many1, consumed, hp]
    rw [many0F_map_snd p (r.length + 1) r]
    cases hrec : many0F (consumed p) (r.length + 1) r with
    | ok r2 l2 => simp [hrec, PRes.map]
    | err => simp [hrec, PRes.map]
    | fail => simp [hrec, PRes.map]

theorem driver_map_snd (input : Input) :
    lexer input = PRes.map (List.map Prod.snd) (lexerSpans input) := by
  have h := many1_map_snd token input
  cases h1 : many1 (consumed token) input with
  | err =>
    rw [h1] at h
    simp only [PRes.map] at h
    simp [lexer, lexerSpans, terminated, pbind, all_consuming, h, h1, PRes.map]
  | fail =>
    rw [h1] at h
    simp only [PRes.map] at h
    simp [lexer, lexerSpans, terminated, pbind, all_consuming, h, h1, PRes.map]
  | ok r l =>
    rw [h1] at h
    simp only [PRes.map] at h
    by_cases hr : r.isEmpty = true <;>
      simp [lexer, lexerSpans, terminated, pbind, all_consuming, value, eof, h, h1, hr, PRes.map]

theorem many0F_spans_join :
    ∀ fuel (input rest : Input) (l : List (List Char × Token)),
      many0F (consumed token) fuel input = .ok rest l →
      (l.map Prod.fst).flatten ++ rest = input := by
  intro fuel
  induction fuel with
  | zero =>
    intro input rest l h
    simp only [many0F] at h
    cases h
  | succ n ih =>
    intro input rest l h
    cases hp : consumed token input with
    | fail => simp only [many0F, hp] at h; cases h
    | err =>
      simp only [many0F, hp] at h
      cases h
      simp
    | ok r w =>
      obtain ⟨span, tok⟩ := w
      obtain ⟨hsplit, -⟩ := consumed_split token trims_token input r span tok (by rw [hp])
      simp only [many0F, hp] at h
      split at h
      · cases h
      · cases hrec : many0F (consumed token) n r with
        | ok r2 l2 =>
          simp only [hrec] at h
          cases h
          have hj := ih _ _ _ hrec
          subst hsplit
          simp only [List.map_cons, List.flatten_cons, List.append_assoc]
          rw [hj]
        | err => simp only [hrec] at h; cases h
        | fail => simp only [hrec] at h; cases h

theorem many1_spans_join (input rest : Input) (l : List (List Char × Token))
    (h : many1 (consumed token) input = .ok rest l) :
    (l.map Prod.fst).flatten ++ rest = input := by
  cases hp : consumed token input with
  | err => simp only [many1, hp] at h; cases h
  | fail => simp only [many1, hp] at h; cases h
  | ok r w =>
    obtain ⟨span, tok⟩ := w
    obtain ⟨hsplit, -⟩ := consumed_split token trims_token input r span tok (by rw [hp])
    simp only [many1, hp] at h
    cases hrec : many0F (consumed token) (r.length + 1) r with
    | ok r2 l2 =>
      simp only [hrec] at h
      cases h
      have hj := many0F_spans_join _ _ _ _ hrec
      subst hsplit
      simp only [List.map_cons, List.flatten_cons, List.append_assoc]
      rw [hj]
    | err => simp only [hrec] at h; cases h
    | fail => simp only [hrec] at h; cases h

/-- C1: Round-trip totality — for every input on which `lexer` succeeds, the
instrumented driver `lexerSpans` succeeds as well, produces the same tokens,
and the concatenation of the literal source spans matched by the successive
tokens, in order, equals the original input exactly. -/
theorem C1_round_trip_totality (input rest : Input) (toks : List Token)
    (h : lexer input = .ok rest toks) :
    ∃ l : List (List Char × Token),
      lexerSpans input = .ok [] l ∧ toks = l.map Prod.snd ∧
      (l.map Prod.fst).flatten = input ∧ rest = [] := by
  have hmap := driver_map_snd input
  rw [h] at hmap
  cases hs : lexerSpans input with
  | err => rw [hs] at hmap; simp only [PRes.map] at hmap; cases hmap
  | fail => rw [hs] at hmap; simp only [PRes.map] at hmap; cases hmap
  | ok r l =>
    rw [hs] at hmap
    simp only [PRes.map] at hmap
    have hrest : rest = r := by cases hmap; rfl
    have htoks : toks = l.map Prod.snd := by cases hmap; rfl
    obtain ⟨-, hrnil⟩ := all_consuming_ok _ input rest toks h
    obtain ⟨hterm2, -⟩ := all_consuming_ok _ input r l hs
    obtain ⟨hm1, -⟩ := terminated_eof_ok _ input r l hterm2
    have hjoin := many1_spans_join input r l hm1
    have hr0 : r = [] := by rw [← hrest]; exact hrnil
    refine ⟨l, ?_, htoks, ?_, hrnil⟩
    · rw [hr0]
    · rw [hr0, List.append_nil] at hjoin
      exact hjoin

/-- Closed instance of C1 at a concrete input, discharging its hypothesis. -/
theorem C1_round_trip_totality_witness :
    ∃ l : List (List Char × Token),
      lexerSpans ['a', '+', '2'] = .ok [] l ∧
      [Token.Identifier ['a'], Token.Number 2] = l.map Prod.snd ∧
      (l.map Prod.fst).flatten = ['a', '+', '2'] ∧ ([] : Input) = [] :=
  C1_round_trip_totality ['a', '+', '2'] [] [Token.Identifier ['a'], Token.Number 2] (by decide)


theorem map_ok {α β : Type} (p : Parser α) (f : α → β) (input rest : Input) (v : β)
    (h : map p f input = .ok rest v) : ∃ w, p input = .ok rest w ∧ v = f w := by
  cases hp : p input with
  | ok r w =>
    simp only [map, hp] at h
    have h1 : r = rest := by cases h; rfl
    have h2 : f w = v := by cases h; rfl
    subst h1
    subst h2
    exact ⟨w, rfl, rfl⟩
  | err => simp only [map, hp] at h; cases h
  | fail => simp only [map, hp] at h; cases h

theorem value_ok {α β : Type} (b : β) (p : Parser α) (input rest : Input) (v : β)
    (h : value b p input = .ok rest v) : v = b ∧ ∃ w, p input = .ok rest w := by
  cases hp : p input with
  | ok r w =>
    simp only [value, hp] at h
    have h1 : r = rest := by cases h; rfl
    have h2 : b = v := by cases h; rfl
    subst h1
    subst h2
    exact ⟨rfl, w, rfl⟩
  | err => simp only [value, hp] at h; cases h
  | fail => simp only [value, hp] at h; cases h

theorem alt_first {α : Type} :
    ∀ (ps : List (Parser α)) (i : Nat) (p : Parser α) (input rest : Input) (v : α),
      ps.get? i = some p →
      (∀ j q, j < i → ps.get? j = some q → q input = .err) →
      p input = .ok rest v →
      alt ps input = .ok rest v := by
  intro ps
  induction ps with
  | nil =>
    intro i p input rest v hget _ _
    simp at hget
  | cons q tl ih =>
    intro i p input rest v hget hprev hok
    cases i with
    | zero =>
      have hq : q = p := by
        simp only [List.get?, Option.some.injEq] at hget
        exact hget
      subst hq
      simp only [alt, hok]
    | succ i2 =>
      have h0 : q input = .err := hprev 0 q (Nat.succ_pos _) rfl
      simp only [alt, h0]
      exact ih i2 p input rest v hget
        (fun j qq hj hg => hprev (j + 1) qq (Nat.succ_lt_succ hj) hg) hok

/-- C2 counterexample: at the cursor position starting `"+2"` two distinct
token rules apply — the Number rule (index 2 of the rule list) matches the
whole of `"+2"` and the Operator rule (index 4) matches its `"+"` — so it is
not the case that exactly one of the nine rules can apply at every position,
and the priority order does change which rule matches. -/
theorem C2_counterexample :
    rules.get? 2 = some (map double Token.Number) ∧
    rules.get? 4 = some (map operator Token.Operator) ∧
    (map double Token.Number) ['+', '2'] = .ok [] (Token.Number 2) ∧
    (map operator Token.Operator) ['+', '2'] = .ok ['2'] (Token.Operator ['+']) :=
  ⟨rfl, rfl, by decide, by decide⟩

/-- C2 amended: the nine token rules are not mutually exclusive — several can
apply at one position (for example Number and Operator at `"+2"`) — but rule
order is still a total disambiguation strategy in the sense that the first
applicable rule in the list wins: whenever every rule before index `i` errs
at the position and rule `i` matches, `token` returns exactly rule `i`'s
match. -/
theorem C2_first_applicable_rule_wins (input : Input) (i : Nat) (p : Parser Token)
    (rest : Input) (v : Token)
    (hget : rules.get? i = some p)
    (hprev : ∀ j q, j < i → rules.get? j = some q → q input = .err)
    (hok : p input = .ok rest v) :
    token input = .ok rest v :=
  alt_first rules i p input rest v hget hprev hok

/-- Closed instance of the amended C2 at a concrete input, discharging its
hypotheses: at `"+2"` the two comment and identifier rules err, the Number
rule matches, and `token` returns the Number match. -/
theorem C2_first_applicable_rule_wins_witness :
    token ['+', '2'] = .ok [] (Token.Number 2) :=
  C2_first_applicable_rule_wins ['+', '2'] 2 (map double Token.Number) []
    (Token.Number 2) rfl
    (fun j q hj hget => by
      interval_cases j
      · cases hget
        decide
      · cases hget
        decide)
    (by decide)

theorem token_ok_cases (input rest : Input) (t : Token)
    (h : token input = .ok rest t) :
    (∃ s, t = Token.LineComment s ∧ line_comment input = .ok rest s) ∨
    (∃ s, t = Token.Identifier s ∧ identifier input = .ok rest s) ∨
    (∃ q, t = Token.Number q ∧ double input = .ok rest q) ∨
    (∃ s, t = Token.String s ∧ string input = .ok rest s) ∨
    (∃ s, t = Token.Operator s ∧ operator input = .ok rest s) ∨
    (∃ s, t = Token.Whitespace s ∧ multispace1 input = .ok rest s) ∨
    (t = Token.BracketRoundClosing ∧ ∃ w, char ')' input = .ok rest w) ∨
    (t = Token.BracketRoundOpening ∧ ∃ w, char '(' input = .ok rest w) ∨
    (t = Token.Slash ∧ ∃ w, char '/' input = .ok rest w) := by
  cases h0 : (map line_comment Token.LineComment) input with
  | fail => simp only [token, rules, alt, h0] at h; cases h
  | ok r w =>
    simp only [token, rules, alt, h0] at h
    have hr : r = rest := by cases h; rfl
    have ht : w = t := by cases h; rfl
    subst hr
    subst ht
    obtain ⟨s, hs, hv⟩ := map_ok _ _ _ _ _ h0
    exact Or.inl ⟨s, hv, hs⟩
  | err =>
  cases h1 : (map identifier Token.Identifier) input with
  | fail => simp only [token, rules, alt, h0, h1] at h; cases h
  | ok r w =>
    simp only [token, rules, alt, h0, h1] at h
    have hr : r = rest := by cases h; rfl
    have ht : w = t := by cases h; rfl
    subst hr
    subst ht
    obtain ⟨s, hs, hv⟩ := map_ok _ _ _ _ _ h1
    exact Or.inr (Or.inl ⟨s, hv, hs⟩)
  | err =>
  cases h2 : (map double Token.Number) input with
  | fail => simp only [token, rules, alt, h0, h1, h2] at h; cases h
  | ok r w =>
    simp only [token, rules, alt, h0, h1, h2] at h
    have hr : r = rest := by cases h; rfl
    have ht : w = t := by cases h; rfl
    subst hr
    subst ht
    obtain ⟨s, hs, hv⟩ := map_ok _ _ _ _ _ h2
    exact Or.inr (Or.inr (Or.inl ⟨s, hv, hs⟩))
  | err =>
  cases h3 : (map string Token.String) input with
  | fail => simp only [token, rules, alt, h0, h1, h2, h3] at h; cases h
  | ok r w =>
    simp only [token, rules, alt, h0, h1, h2, h3] at h
    have hr : r = rest := by cases h; rfl
    have ht : w = t := by cases h; rfl
    subst hr
    subst ht
    obtain ⟨s, hs, hv⟩ := map_ok _ _ _ _ _ h3
    exact Or.inr (Or.inr (Or.inr (Or.inl ⟨s, hv, hs⟩)))
  | err =>
  cases h4 : (map operator Token.Operator) input with
  | fail => simp only [token, rules, alt, h0, h1, h2, h3, h4] at h; cases h
  | ok r w =>
    simp only [token, rules, alt, h0, h1, h2, h3, h4] at h
    have hr : r = rest := by cases h; rfl
    have ht : w = t := by cases h; rfl
    subst hr
    subst ht
    obtain ⟨s, hs, hv⟩ := map_ok _ _ _ _ _ h4
    exact Or.inr (Or.inr (Or.inr (Or.inr (Or.inl ⟨s, hv, hs⟩))))
  | err =>
  cases h5 : (map multispace1 Token.Whitespace) input with
  | fail => simp only [token, rules, alt, h0, h1, h2, h3, h4, h5] at h; cases h
  | ok r w =>
    simp only [token, rules, alt, h0, h1, h2, h3, h4, h5] at h
    have hr : r = rest := by cases h; rfl
    have ht : w = t := by cases h; rfl
    subst hr
    subst ht
    obtain ⟨s, hs, hv⟩ := map_ok _ _ _ _ _ h5
    exact Or.inr (Or.inr (Or.inr (Or.inr (Or.inr (Or.inl ⟨s, hv, hs⟩)))))
  | err =>
  cases h6 : (value Token.BracketRoundClosing (char ')')) input with
  | fail => simp only [token, rules, alt, h0, h1, h2, h3, h4, h5, h6] at h; cases h
  | ok r w =>
    simp only [token, rules, alt, h0, h1, h2, h3, h4, h5, h6] at h
    have hr : r = rest := by cases h; rfl
    have ht : w = t := by cases h; rfl
    subst hr
    subst ht
    obtain ⟨hv, w2, hw⟩ := value_ok _ _ _ _ _ h6
    exact Or.inr (Or.inr (Or.inr (Or.inr (Or.inr (Or.inr (Or.inl ⟨hv, w2, hw⟩))))))
  | err =>
  cases h7 : (value Token.BracketRoundOpening (char '(')) input with
  | fail => simp only [token, rules, alt, h0, h1, h2, h3, h4, h5, h6, h7] at h; cases h
  | ok r w =>
    simp only [token, rules, alt, h0, h1, h2, h3, h4, h5, h6, h7] at h
    have hr : r = rest := by cases h; rfl
    have ht : w = t := by cases h; rfl
    subst hr
    subst ht
    obtain ⟨hv, w2, hw⟩ := value_ok _ _ _ _ _ h7
    exact Or.inr (Or.inr (Or.inr (Or.inr (Or.inr (Or.inr (Or.inr (Or.inl ⟨hv, w2, hw⟩)))))))
  | err =>
  cases h8 : (value Token.Slash (char '/')) input with
  | fail => simp only [token, rules, alt, h0, h1, h2, h3, h4, h5, h6, h7, h8] at h; cases h
  | ok r w =>
    simp only [token, rules, alt, h0, h1, h2, h3, h4, h5, h6, h7, h8] at h
    have hr : r = rest := by cases h; rfl
    have ht : w = t := by cases h; rfl
    subst hr
    subst ht
    obtain ⟨hv, w2, hw⟩ := value_ok _ _ _ _ _ h8
    exact Or.inr (Or.inr (Or.inr (Or.inr (Or.inr (Or.inr (Or.inr (Or.inr ⟨hv, w2, hw⟩)))))))
  | err =>
    simp only [token, rules, alt, h0, h1, h2, h3, h4, h5, h6, h7, h8] at h
    cases h

/-- C3 counterexample: U+00A0 (no-break space) is a Unicode whitespace
character, yet an input consisting of it alone fails to tokenize, because the
whitespace rule (nom `multispace1`) only accepts space, tab, carriage return
and line feed. -/
theorem C3_counterexample : lexer [Char.ofNat 160] = .err := by decide

/-- C3 amended: whenever `token` emits a Whitespace token, its text is a
nonempty maximal run of characters from the set space, tab, carriage return,
line feed (not of all Unicode whitespace): the run is drawn from that set,
spans the input up to the rest, and the rest does not begin with another such
character — so a run is never split into one token per character. -/
theorem C3_whitespace_maximal_run (input rest : Input) (s : List Char)
    (h : token input = .ok rest (Token.Whitespace s)) :
    s ≠ [] ∧ (∀ c ∈ s, is_multispace c = true) ∧ input = s ++ rest ∧
    (∀ c, rest.head? = some c → is_multispace c = false) := by
  rcases token_ok_cases input rest _ h with
    ⟨s2, hs2, -⟩ | ⟨s2, hs2, -⟩ | ⟨q, hq, -⟩ | ⟨s2, hs2, -⟩ | ⟨s2, hs2, -⟩ |
    ⟨s2, hs2, hm⟩ | ⟨ht, -⟩ | ⟨ht, -⟩ | ⟨ht, -⟩
  · cases hs2
  · cases hs2
  · cases hq
  · cases hs2
  · cases hs2
  · have hss : s2 = s := by cases hs2; rfl
    subst hss
    simp only [multispace1] at hm
    split at hm
    · cases hm
    · rename_i hne
      have hs : input.takeWhile is_multispace = s2 := by cases hm; rfl
      have hrest : input.drop (input.takeWhile is_multispace).length = rest := by
        cases hm; rfl
      refine ⟨?_, ?_, ?_, ?_⟩
      · intro hnil
        rw [hs, hnil] at hne
        simp at hne
      · intro c hc
        rw [← hs] at hc
        exact List.mem_takeWhile_imp hc
      · rw [← hs, ← hrest, ← dropWhile_eq_drop]
        exact (List.takeWhile_append_dropWhile _ _).symm
      · intro c hc
        rw [← hrest, ← dropWhile_eq_drop] at hc
        have hd := List.head?_dropWhile_not is_multispace input
        rw [hc] at hd
        exact hd
  · cases ht
  · cases ht
  · cases ht

/-- Closed instance of the amended C3 at a concrete input, discharging its
hypothesis. -/
theorem C3_whitespace_maximal_run_witness :
    [' ', '\t'] ≠ ([] : List Char) ∧
    (∀ c ∈ [' ', '\t'], is_multispace c = true) ∧
    [' ', '\t', 'x'] = [' ', '\t'] ++ ['x'] ∧
    (∀ c, (['x'] : Input).head? = some c → is_multispace c = false) :=
  C3_whitespace_maximal_run [' ', '\t', 'x'] ['x'] [' ', '\t'] (by decide)


theorem takeWhile_bne_cons_pos (b c : Char) (t : List Char) (hc : (c != b) = true) :
    (c :: t).takeWhile (fun x => x != b) = c :: t.takeWhile (fun x => x != b) := by
  simp [List.takeWhile_cons, hc]

theorem takeWhile_bne_cons_neg (b c : Char) (t : List Char) (hc : ¬(c != b) = true) :
    (c :: t).takeWhile (fun x => x != b) = [] := by
  simp only [List.takeWhile_cons]
  rw [if_neg hc]

theorem dropWhile_bne_cons_pos (b c : Char) (t : List Char) (hc : (c != b) = true) :
    (c :: t).dropWhile (fun x => x != b) = t.dropWhile (fun x => x != b) := by
  simp [List.dropWhile_cons, hc]

theorem dropWhile_bne_cons_neg (b c : Char) (t : List Char) (hc : ¬(c != b) = true) :
    (c :: t).dropWhile (fun x => x != b) = c :: t := by
  simp only [List.dropWhile_cons]
  rw [if_neg hc]

theorem many0F_not_char (b : Char) :
    ∀ fuel (input : Input), (input.takeWhile (fun c => c != b)).length < fuel →
      many0F (not_char b) fuel input =
        .ok (input.dropWhile (fun c => c != b)) (input.takeWhile (fun c => c != b)) := by
  intro fuel
  induction fuel with
  | zero =>
    intro input h
    exact absurd h (Nat.not_lt_zero _)
  | succ n ih =>
    intro input h
    cases input with
    | nil => simp [many0F, not_char, satisfy]
    | cons c t =>
      by_cases hc : (c != b) = true
      · have hstep : not_char b (c :: t) = .ok t c := by simp [not_char, satisfy, hc]
        simp only [many0F, hstep]
        rw [if_neg (by simp : ¬((t.length == (c :: t).length) = true))]
        have hlt : (t.takeWhile (fun c => c != b)).length < n := by
          rw [takeWhile_bne_cons_pos b c t hc] at h
          simp only [List.length_cons] at h
          omega
        simp only [ih t hlt]
        rw [takeWhile_bne_cons_pos b c t hc, dropWhile_bne_cons_pos b c t hc]
      · have hstep : not_char b (c :: t) = .err := by
          simp only [not_char, satisfy]
          rw [if_neg hc]
        simp only [many0F, hstep]
        rw [takeWhile_bne_cons_neg b c t hc, dropWhile_bne_cons_neg b c t hc]

theorem many0_not_char (b : Char) (input : Input) :
    many0 (not_char b) input =
      .ok (input.dropWhile (fun c => c != b)) (input.takeWhile (fun c => c != b)) := by
  apply many0F_not_char
  have := length_takeWhile_le (fun c => c != b) input
  omega

theorem opt_peek_char {β : Type} (v : β) (c : Char) (input : Input) :
    value v (opt (peek (char c))) input = .ok input v := by
  cases input with
  | nil => simp [value, opt, peek, char, satisfy]
  | cons x t =>
    by_cases hx : (x == c) = true <;>
      simp [value, opt, peek, char, satisfy, hx]

theorem line_comment_eq (s : Input) :
    line_comment ('/' :: '/' :: s) =
      .ok (s.dropWhile (fun c => c != '\n')) (s.takeWhile (fun c => c != '\n')) := by
  have htag : tag ['/', '/'] ('/' :: '/' :: s) = .ok s ['/', '/'] := by
    simp [tag, tagAux]
  have hm := many0_not_char '\n' s
  have hlen : s.takeWhile (fun c => c != '\n') ++ s.dropWhile (fun c => c != '\n') = s :=
    List.takeWhile_append_dropWhile _ _
  have hspan :
      s.take (s.length - (s.dropWhile (fun c => c != '\n')).length) =
        s.takeWhile (fun c => c != '\n') := by
    have h2 := take_sub_of_append (s.takeWhile (fun c => c != '\n'))
      (s.dropWhile (fun c => c != '\n'))
    rw [hlen] at h2
    exact h2
  simp only [line_comment, delimited, pbind, htag, recognize, hm, hspan]
  exact opt_peek_char _ _ _

theorem token_comment (s : Input) :
    token ('/' :: '/' :: s) =
      .ok (s.dropWhile (fun c => c != '\n'))
        (Token.LineComment (s.takeWhile (fun c => c != '\n'))) := by
  have h := line_comment_eq s
  simp only [token, rules, alt, map, h]

/-- C6: the LineComment rule consumes `//` and the comment body but never the
trailing newline, and the body excludes both `//` and the newline: in general
a token at `//`-prefixed input is the line comment whose body is everything up
to (excluding) the first newline, which is left in the rest; and in
particular `"//hello\nword"` tokenizes to
`[LineComment "hello", Whitespace "\n", Identifier "word"]`. -/
theorem C6_comment_boundary :
    lexer ['/', '/', 'h', 'e', 'l', 'l', 'o', '\n', 'w', 'o', 'r', 'd'] =
      .ok [] [Token.LineComment ['h', 'e', 'l', 'l', 'o'], Token.Whitespace ['\n'],
        Token.Identifier ['w', 'o', 'r', 'd']] ∧
    ∀ s : Input,
      token ('/' :: '/' :: s) =
        .ok (s.dropWhile (fun c => c != '\n'))
          (Token.LineComment (s.takeWhile (fun c => c != '\n'))) :=
  ⟨by decide, token_comment⟩

theorem token_slash (input rest : Input)
    (h : token input = .ok rest Token.Slash) :
    input = '/' :: rest ∧ ∀ u : Input, rest ≠ '/' :: u := by
  rcases token_ok_cases input rest _ h with
    ⟨s2, hs2, -⟩ | ⟨s2, hs2, -⟩ | ⟨q, hq, -⟩ | ⟨s2, hs2, -⟩ | ⟨s2, hs2, -⟩ |
    ⟨s2, hs2, -⟩ | ⟨ht, -⟩ | ⟨ht, -⟩ | ⟨-, w, hw⟩
  · cases hs2
  · cases hs2
  · cases hq
  · cases hs2
  · cases hs2
  · cases hs2
  · cases ht
  · cases ht
  · cases input with
    | nil => simp [char, satisfy] at hw
    | cons c t =>
      simp only [char, satisfy] at hw
      split at hw
      · rename_i hc
        have ht2 : t = rest := by cases hw; rfl
        have hceq : c = '/' := eq_of_beq hc
        constructor
        · rw [hceq, ht2]
        · intro u hu
          rw [hceq, ht2, hu] at h
          rw [token_comment u] at h
          simp only [PRes.ok.injEq] at h
          obtain ⟨-, hbad⟩ := h
          cases hbad
      · cases hw

theorem no_two_slash_cons (input r : Input) (w : Token) (toks2 : List Token)
    (hp : token input = .ok r w)
    (hnc2 : noConsecutiveSlash toks2)
    (hhead2 : ∀ tl, toks2 = Token.Slash :: tl → ∃ u, r = '/' :: u ∧ ∀ v, u ≠ '/' :: v) :
    noConsecutiveSlash (w :: toks2) := by
  intro i hcon
  cases i with
  | zero =>
    obtain ⟨hc0, hc1⟩ := hcon
    simp only [List.get?] at hc0 hc1
    have hw : w = Token.Slash := by cases hc0; rfl
    subst hw
    obtain ⟨hin, hnos⟩ := token_slash input r hp
    cases toks2 with
    | nil => simp at hc1
    | cons t2 tl2 =>
      simp only [List.get?] at hc1
      have ht2 : t2 = Token.Slash := by cases hc1; rfl
      subst ht2
      obtain ⟨u, hu, -⟩ := hhead2 tl2 rfl
      exact hnos u hu
  | succ i2 =>
    obtain ⟨hc0, hc1⟩ := hcon
    exact hnc2 i2 ⟨hc0, hc1⟩

theorem many0F_no_two_slash :
    ∀ fuel (input rest : Input) (toks : List Token),
      many0F token fuel input = .ok rest toks →
      noConsecutiveSlash toks ∧
      (∀ tl, toks = Token.Slash :: tl → ∃ u, input = '/' :: u ∧ ∀ w, u ≠ '/' :: w) := by
  intro fuel
  induction fuel with
  | zero =>
    intro input rest toks h
    simp only [many0F] at h
    cases h
  | succ n ih =>
    intro input rest toks h
    cases hp : token input with
    | fail => simp only [many0F, hp] at h; cases h
    | err =>
      simp only [many0F, hp] at h
      have htoks : toks = [] := by cases h; rfl
      subst htoks
      refine ⟨fun i hcon => ?_, fun tl htl => by cases htl⟩
      obtain ⟨hc0, -⟩ := hcon
      simp at hc0
    | ok r w =>
      simp only [many0F, hp] at h
      split at h
      · cases h
      · cases hrec : many0F token n r with
        | err => simp only [hrec] at h; cases h
        | fail => simp only [hrec] at h; cases h
        | ok r2 toks2 =>
          simp only [hrec] at h
          have htoks : toks = w :: toks2 := by cases h; rfl
          subst htoks
          obtain ⟨hnc2, hhead2⟩ := ih _ _ _ hrec
          refine ⟨no_two_slash_cons input r w toks2 hp hnc2 hhead2, ?_⟩
          intro tl htl
          have hw : w = Token.Slash := by cases htl; rfl
          subst hw
          obtain ⟨hin, hnos⟩ := token_slash input r hp
          exact ⟨r, hin, hnos⟩

theorem lexer_no_two_slash (input rest : Input) (toks : List Token)
    (h : lexer input = .ok rest toks) : noConsecutiveSlash toks := by
  obtain ⟨h1, -⟩ := all_consuming_ok _ _ _ _ h
  obtain ⟨h2, -⟩ := terminated_eof_ok _ _ _ _ h1
  cases hp : token input with
  | err => simp only [many1, hp] at h2; cases h2
  | fail => simp only [many1, hp] at h2; cases h2
  | ok r w =>
    simp only [many1, hp] at h2
    cases hrec : many0F token (r.length + 1) r with
    | err => simp only [hrec] at h2; cases h2
    | fail => simp only [hrec] at h2; cases h2
    | ok r2 toks2 =>
      simp only [hrec] at h2
      have htoks : toks = w :: toks2 := by cases h2; rfl
      subst htoks
      obtain ⟨hnc2, hhead2⟩ := many0F_no_two_slash _ _ _ _ hrec
      exact no_two_slash_cons input r w toks2 hp hnc2 hhead2

/-- C7: a single `/` not followed by another `/` is emitted as a Slash token
(`"two/identifiers"` tokenizes with a Slash between the identifiers); on every
input beginning with `//` the comment rule wins, producing a LineComment; and
no successful tokenization ever contains two consecutive Slash tokens. -/
theorem C7_slash_vs_comment :
    lexer ['t', 'w', 'o', '/', 'i', 'd', 'e', 'n', 't', 'i', 'f', 'i', 'e', 'r', 's'] =
      .ok [] [Token.Identifier ['t', 'w', 'o'], Token.Slash,
        Token.Identifier ['i', 'd', 'e', 'n', 't', 'i', 'f', 'i', 'e', 'r', 's']] ∧
    (∀ s : Input, ∃ body,
      token ('/' :: '/' :: s) =
        .ok (s.dropWhile (fun c => c != '\n')) (Token.LineComment body)) ∧
    ∀ (input rest : Input) (toks : List Token),
      lexer input = .ok rest toks → noConsecutiveSlash toks :=
  ⟨by decide, fun s => ⟨_, token_comment s⟩, lexer_no_two_slash⟩

/-- Closed instance of C7 at a concrete input, discharging its hypothesis:
the tokens of `"a/b"` contain no two consecutive Slash tokens. -/
theorem C7_slash_vs_comment_witness :
    noConsecutiveSlash [Token.Identifier ['a'], Token.Slash, Token.Identifier ['b']] :=
  C7_slash_vs_comment.2.2 ['a', '/', 'b'] []
    [Token.Identifier ['a'], Token.Slash, Token.Identifier ['b']] (by decide)


theorem takeWhile_no_quote (s : Input) (h : '"' ∉ s) :
    s.takeWhile (fun c => c != '"') = s := by
  apply List.takeWhile_eq_self_iff.mpr
  intro c hc
  have hne : c ≠ '"' := fun heq => h (heq ▸ hc)
  simpa using hne

theorem dropWhile_no_quote (s : Input) (h : '"' ∉ s) :
    s.dropWhile (fun c => c != '"') = [] := by
  have h2 := List.takeWhile_append_dropWhile (fun c => c != '"') s
  rw [takeWhile_no_quote s h] at h2
  have h3 : s ++ s.dropWhile (fun c => c != '"') = s ++ [] := by
    rw [List.append_nil]
    exact h2
  exact List.append_cancel_left h3

theorem token_err_quote (s : Input) (h : '"' ∉ s) : token ('"' :: s) = .err := by
  have e1 : ('"' == '/') = false := by decide
  have e2 : char_is_alphabetic '"' = false := by decide
  have e3 : ('"' == '+') = false := by decide
  have e4 : ('"' == '-') = false := by decide
  have e5 : ('"' == '.') = false := by decide
  have e6 : Char.isDigit '"' = false := by decide
  have e7 : (['+', '<', '=', '.'].contains '"') = false := by decide
  have e8 : is_multispace '"' = false := by decide
  have e9 : ('"' == ')') = false := by decide
  have e10 : ('"' == '(') = false := by decide
  have e11 : ('"' == '"') = true := by decide
  have hd : ('"' :: s).takeWhile Char.isDigit = [] := by
    simp only [List.takeWhile_cons]
    rw [if_neg (by simp [e6])]
  have hw : ('"' :: s).takeWhile is_multispace = [] := by
    simp only [List.takeWhile_cons]
    rw [if_neg (by simp [e8])]
  have h0 : (map line_comment Token.LineComment) ('"' :: s) = .err := by
    simp [map, line_comment, delimited, pbind, tag, tagAux, e1]
  have h1 : (map identifier Token.Identifier) ('"' :: s) = .err := by
    simp [map, identifier, recognize, tuple2, pbind, unicode_alphabetic, satisfy, e2]
  have h2 : (map double Token.Number) ('"' :: s) = .err := by
    simp [map, double, recognize_float, recognize, tuple3, pbind, float_sign,
      float_mantissa, opt, alt, char, satisfy, e3, e4, e5, digit1, hd, tuple2]
  have h3 : (map string Token.String) ('"' :: s) = .err := by
    simp [map, string, delimited, pbind, char, satisfy, e11, recognize,
      many0_not_char, takeWhile_no_quote s h, dropWhile_no_quote s h, value]
  have h4 : (map operator Token.Operator) ('"' :: s) = .err := by
    simp [map, operator, recognize, many_m_n, one_of, satisfy, e7]
  have h5 : (map multispace1 Token.Whitespace) ('"' :: s) = .err := by
    simp [map, multispace1, hw]
  have h6 : (value Token.BracketRoundClosing (char ')')) ('"' :: s) = .err := by
    simp [value, char, satisfy, e9]
  have h7 : (value Token.BracketRoundOpening (char '(')) ('"' :: s) = .err := by
    simp [value, char, satisfy, e10]
  have h8 : (value Token.Slash (char '/')) ('"' :: s) = .err := by
    simp [value, char, satisfy, e1]
  simp only [token, rules, alt, h0, h1, h2, h3, h4, h5, h6, h7, h8]

theorem lexer_quote_err (s : Input) (h : '"' ∉ s) : lexer ('"' :: s) = .err := by
  have ht := token_err_quote s h
  simp [lexer, all_consuming, terminated, pbind, many1, ht]

/-- C8: when tokenization reaches an opening double quote with no matching
closing quote before end of input, no token rule applies there, so the whole
call returns an error and no token list is produced: `token` errs at any such
position, an input starting with such a literal makes `lexer` err, and in
particular tokenizing `"\"abc"` returns an error. -/
theorem C8_unterminated_string (s : Input) (h : '"' ∉ s) :
    token ('"' :: s) = .err ∧ lexer ('"' :: s) = .err ∧
    lexer ['"', 'a', 'b', 'c'] = .err :=
  ⟨token_err_quote s h, lexer_quote_err s h, by decide⟩

/-- Closed instance of C8 at a concrete input, discharging its hypothesis. -/
theorem C8_unterminated_string_witness :
    token ['"', 'a', 'b', 'c'] = .err ∧ lexer ['"', 'a', 'b', 'c'] = .err ∧
    lexer ['"', 'a', 'b', 'c'] = .err :=
  C8_unterminated_string ['a', 'b', 'c'] (by decide)

/-- C5: operator runs are matched greedily up to two characters per token and
the rule is re-applied per match: `"one<<two"` tokenizes to
`[Identifier "one", Operator "<<", Identifier "two"]` (never two single-char
operators), and `"<<<"` tokenizes to `[Operator "<<", Operator "<"]`. -/
theorem C5_operator_greediness :
    lexer ['o', 'n', 'e', '<', '<', 't', 'w', 'o'] =
      .ok [] [Token.Identifier ['o', 'n', 'e'], Token.Operator ['<', '<'],
        Token.Identifier ['t', 'w', 'o']] ∧
    lexer ['<', '<', '<'] = .ok [] [Token.Operator ['<', '<'], Token.Operator ['<']] :=
  ⟨by decide, by decide⟩

/-- C9: the empty input is rejected — `lexer` on the empty string returns an
error, not a successful empty token list, because `many1` demands at least
one token. -/
theorem C9_empty_input_rejected : lexer [] = .err := by decide

/-- C10: sign absorption — because the Number rule is tried before the
Operator rule and accepts a leading sign, `lexer "a+2"` returns
`[Identifier "a", Number 2.0]`, with the `+` consumed as part of the numeric
literal rather than as an operator token. -/
theorem C10_sign_absorption :
    lexer ['a', '+', '2'] = .ok [] [Token.Identifier ['a'], Token.Number 2] := by
  decide


theorem float_sign_eval (input : Input) :
    ∃ v, float_sign input = .ok (shapeSignRest input) v := by
  cases input with
  | nil => exact ⟨none, rfl⟩
  | cons c t =>
    by_cases h1 : (c == '+') = true
    · exact ⟨some c, by simp [float_sign, opt, alt, char, satisfy, shapeSignRest, h1]⟩
    · by_cases h2 : (c == '-') = true
      · exact ⟨some c, by simp [float_sign, opt, alt, char, satisfy, shapeSignRest, h1, h2]⟩
      · exact ⟨none, by simp [float_sign, opt, alt, char, satisfy, shapeSignRest, h1, h2]⟩

theorem float_mantissa_eval (s : Input) :
    float_mantissa s = (shapeMantissa s).elim PRes.err (fun r => PRes.ok r ()) := by
  cases s with
  | nil => rfl
  | cons c t =>
    by_cases hcd : Char.isDigit c = true
    · have hd : (c :: t).takeWhile Char.isDigit = c :: t.takeWhile Char.isDigit := by
        simp [List.takeWhile_cons, hcd]
      have hd1 : digit1 (c :: t) =
          .ok (t.drop (t.takeWhile Char.isDigit).length) (c :: t.takeWhile Char.isDigit) := by
        simp [digit1, hd]
      cases hq : t.drop (t.takeWhile Char.isDigit).length with
      | nil =>
        simp [float_mantissa, alt, map, tuple2, pbind, hd1, hq, opt, char, satisfy,
          shapeMantissa, hd]
      | cons c2 t2 =>
        by_cases hdot : c2 = '.'
        · subst hdot
          cases he : t2.takeWhile Char.isDigit with
          | nil =>
            have hd2 : digit1 t2 = .err := by simp [digit1, he]
            simp [float_mantissa, alt, map, tuple2, pbind, hd1, hq, opt, char, satisfy,
              hd2, he, shapeMantissa, hd]
          | cons d2 ds2 =>
            have hd2 : digit1 t2 =
                .ok (t2.drop (t2.takeWhile Char.isDigit).length) (t2.takeWhile Char.isDigit) := by
              simp [digit1, he]
            simp [float_mantissa, alt, map, tuple2, pbind, hd1, hq, opt, char, satisfy,
              hd2, he, shapeMantissa, hd]
        · simp [float_mantissa, alt, map, tuple2, pbind, hd1, hq, opt, char, satisfy,
            hdot, shapeMantissa, hd]
    · have hd : (c :: t).takeWhile Char.isDigit = [] := by
        simp only [List.takeWhile_cons]
        rw [if_neg hcd]
      have hd1 : digit1 (c :: t) = .err := by simp [digit1, hd]
      by_cases hdot : c = '.'
      · subst hdot
        cases he : t.takeWhile Char.isDigit with
        | nil =>
          have hd2 : digit1 t = .err := by simp [digit1, he]
          simp [float_mantissa, alt, map, tuple2, pbind, hd1, char, satisfy, hd2,
            he, shapeMantissa, hd]
        | cons d2 ds2 =>
          have hd2 : digit1 t =
              .ok (t.drop (t.takeWhile Char.isDigit).length) (t.takeWhile Char.isDigit) := by
            simp [digit1, he]
          simp [float_mantissa, alt, map, tuple2, pbind, hd1, char, satisfy, hd2,
            he, shapeMantissa, hd]
      · simp [float_mantissa, alt, map, tuple2, pbind, hd1, char, satisfy, hdot,
          shapeMantissa, hd]

theorem float_exponent_eval (s2 : Input) :
    (∀ r, shapeExponent s2 = some r → ∃ v, float_exponent s2 = .ok r v) ∧
    (shapeExponent s2 = none → float_exponent s2 = .fail) := by
  cases s2 with
  | nil =>
    constructor
    · intro r hr
      have hr2 : r = [] := by
        simp only [shapeExponent, Option.some.injEq] at hr
        exact hr.symm
      subst hr2
      exact ⟨none, rfl⟩
    · intro h2
      simp [shapeExponent] at h2
  | cons c t =>
    obtain ⟨sv, hsv⟩ := float_sign_eval t
    have hsv2 : opt (alt [char '+', char '-']) t = .ok (shapeSignRest t) sv := hsv
    by_cases hmark : ((c == 'e') || (c == 'E')) = true
    · have hee : alt [char 'e', char 'E'] (c :: t) = .ok t c := by
        rcases Bool.or_eq_true_iff.mp hmark with hce | hcE
        · simp [alt, char, satisfy, hce]
        · by_cases hce : (c == 'e') = true
          · simp [alt, char, satisfy, hce]
          · simp [alt, char, satisfy, hce, hcE]
      cases hed : (shapeSignRest t).takeWhile Char.isDigit with
      | nil =>
        have hcut : cut digit1 (shapeSignRest t) = .fail := by simp [cut, digit1, hed]
        have hin : tuple3 (alt [char 'e', char 'E']) (opt (alt [char '+', char '-']))
            (cut digit1) (c :: t) = .fail := by
          simp only [tuple3, pbind, hee, hsv2, map, hcut]
        constructor
        · intro r hr
          exfalso
          simp [shapeExponent, hmark, expRest, hed] at hr
        · intro h2
          simp [float_exponent, opt, hin]
      | cons d ds =>
        have hcut : cut digit1 (shapeSignRest t) =
            .ok ((shapeSignRest t).drop ((shapeSignRest t).takeWhile Char.isDigit).length)
              ((shapeSignRest t).takeWhile Char.isDigit) := by
          simp [cut, digit1, hed]
        have hin : tuple3 (alt [char 'e', char 'E']) (opt (alt [char '+', char '-']))
            (cut digit1) (c :: t) =
            .ok ((shapeSignRest t).drop ((shapeSignRest t).takeWhile Char.isDigit).length)
              (c, sv, (shapeSignRest t).takeWhile Char.isDigit) := by
          simp only [tuple3, pbind, hee, hsv2, map, hcut]
        constructor
        · intro r hr
          have hr2 : r =
              (shapeSignRest t).drop ((shapeSignRest t).takeWhile Char.isDigit).length := by
            simp [shapeExponent, hmark, expRest, hed] at hr
            simp [hed]
            first
            | exact hr
            | exact hr.symm
          subst hr2
          refine ⟨some (c, sv, (shapeSignRest t).takeWhile Char.isDigit), ?_⟩
          simp [float_exponent, opt, hin]
        · intro h2
          exfalso
          simp [shapeExponent, hmark, expRest, hed] at h2
    · have hce : (c == 'e') = false := by
        cases hb : (c == 'e')
        · rfl
        · exact absurd (by simp [hb]) hmark
      have hcE : (c == 'E') = false := by
        cases hb : (c == 'E')
        · rfl
        · exact absurd (by simp [hb]) hmark
      have hee : alt [char 'e', char 'E'] (c :: t) = .err := by
        simp [alt, char, satisfy, hce, hcE]
      constructor
      · intro r hr
        have hr2 : r = c :: t := by
          simp [shapeExponent, hce, hcE] at hr
          first
          | exact hr
          | exact hr.symm
        subst hr2
        exact ⟨none, by simp [float_exponent, opt, tuple3, pbind, hee]⟩
      · intro h2
        simp [shapeExponent, hce, hcE] at h2

theorem doubleRest_eq (input : Input) : doubleRest input = floatShapeRest input := by
  obtain ⟨sv, hsv⟩ := float_sign_eval input
  have hm := float_mantissa_eval (shapeSignRest input)
  cases hsm : shapeMantissa (shapeSignRest input) with
  | none =>
    rw [hsm] at hm
    simp only [Option.elim] at hm
    simp [doubleRest, double, recognize_float, recognize, tuple3, pbind, hsv, hm,
      floatShapeRest, hsm]
  | some s2 =>
    rw [hsm] at hm
    simp only [Option.elim] at hm
    have hex := float_exponent_eval s2
    cases hse : shapeExponent s2 with
    | none =>
      have hf := hex.2 hse
      simp [doubleRest, double, recognize_float, recognize, tuple3, pbind, map, hsv, hm,
        hf, floatShapeRest, hsm, hse]
    | some r =>
      obtain ⟨v, hv⟩ := hex.1 r hse
      simp [doubleRest, double, recognize_float, recognize, tuple3, pbind, map, hsv, hm,
        hv, floatShapeRest, hsm, hse]

/-- C4 counterexample: the input `".5"` — a literal with a fractional part but
no integer digits — is emitted as a single Number token of value one half, so
integer digits are not required by the Number rule. -/
theorem C4_counterexample :
    lexer ['.', '5'] = .ok [] [Token.Number (mkRat 1 2)] := by decide

/-- C4 amended: a Number token is emitted at a position if and only if the
input there starts with a float literal of nom's shape — an optional sign,
then either integer digits with an optional fraction or a fraction alone (a
dot followed by at least one digit), then an optional exponent whose `e`/`E`
marker demands sign-then-digits, a dangling marker aborting the parse — and
the rule consumes exactly that literal, as captured by the spec-side
recogniser `floatShapeRest`. -/
theorem C4_number_shape (input rest : Input) :
    (∃ q, double input = .ok rest q) ↔ floatShapeRest input = some rest := by
  rw [← doubleRest_eq]
  cases hd : double input with
  | ok r q => simp [doubleRest, hd]
  | err => simp [doubleRest, hd]
  | fail => simp [doubleRest, hd]


/-- Closed instance of the amended C4 at a concrete input: `".5"` satisfies
the amended Number shape and the Number rule consumes exactly it. -/
theorem C4_number_shape_witness : ∃ q, double ['.', '5'] = .ok [] q :=
  (C4_number_shape ['.', '5'] []).mpr (by decide)

/-- Closed instance of C6's general part at a concrete input. -/
theorem C6_comment_boundary_witness :
    token ['/', '/', 'a', '\n', 'b'] =
      .ok ['\n', 'b'] (Token.LineComment ['a']) :=
  C6_comment_boundary.2 ['a', '\n', 'b']

end Aftr
